import Mathlib

/-!
Verification of the tool-execution core of the CodeAgentDemo repository
(`src/tools/bash.py`, `src/tools/text_editor.py`, `src/tools/grep.py`).

The Python code is shallowly embedded: file contents are `List Char`
(Python strings are sequences of code points), stateful pieces (the bash
command history) are explicit state passing, fallible operations return
`Except`.  Python string primitives (`str.split`, `str.splitlines`,
`str.strip`, `str.replace`, `str.count`, the `in` operator) are translated
as executable Lean functions below; `str.lower` is translated with
`Char.toLower`, which agrees with Python on ASCII text.
-/

/-- Characters on which Python `str.splitlines` breaks a line. -/
def isLineBreakChar (ch : Char) : Bool :=
  ch = '\n' || ch = '\r' || ch.toNat = 0x0b || ch.toNat = 0x0c ||
  ch.toNat = 0x1c || ch.toNat = 0x1d || ch.toNat = 0x1e ||
  ch.toNat = 0x85 || ch.toNat = 0x2028 || ch.toNat = 0x2029

/-- Line-break characters other than `'\n'`; contents normalized to LF and
free of these behave like plain LF-terminated text under `splitlines`. -/
def isExoticBreakChar (ch : Char) : Bool :=
  isLineBreakChar ch && ch ≠ '\n'

/-- Characters Python `str.strip()` (no argument) removes: the code points
for which `str.isspace()` holds. -/
def isPySpaceChar (ch : Char) : Bool :=
  (0x09 ≤ ch.toNat && ch.toNat ≤ 0x0d) ||
  (0x1c ≤ ch.toNat && ch.toNat ≤ 0x1f) ||
  ch.toNat = 0x20 || ch.toNat = 0x85 || ch.toNat = 0xa0 ||
  ch.toNat = 0x1680 || (0x2000 ≤ ch.toNat && ch.toNat ≤ 0x200a) ||
  ch.toNat = 0x2028 || ch.toNat = 0x2029 || ch.toNat = 0x202f ||
  ch.toNat = 0x205f || ch.toNat = 0x3000

/-- Python `s.strip()`: drop leading and trailing whitespace. -/
def pyStrip (s : List Char) : List Char :=
  ((s.dropWhile isPySpaceChar).reverse.dropWhile isPySpaceChar).reverse

/-- Python `s.lower()`, restricted to the ASCII case mapping. -/
def pyLower (s : List Char) : List Char :=
  s.map Char.toLower

/-- Python `old in s` for strings: `old` occurs as a contiguous substring
of `s` (always true for the empty `old`). -/
def pyInStr (old : List Char) : List Char → Bool
  | [] => old.isPrefixOf []
  | c :: rest => old.isPrefixOf (c :: rest) || pyInStr old rest

/-- Auxiliary for `pyReplace`: Python `str.replace` for a non-empty
pattern, scanning left to right, with explicit fuel (one unit per scanned
position; `fuel = s.length` always suffices). -/
def pyReplaceFuel (old new : List Char) : Nat → List Char → List Char
  | _, [] => []
  | 0, c :: rest => c :: rest
  | fuel + 1, c :: rest =>
    if old.isPrefixOf (c :: rest) then
      new ++ pyReplaceFuel old new fuel ((c :: rest).drop old.length)
    else
      c :: pyReplaceFuel old new fuel rest

/-- Python `s.replace(old, new)`: replace every non-overlapping occurrence
of `old`, left to right.  An empty `old` inserts `new` at every character
boundary (CPython's special case). -/
def pyReplace (s old new : List Char) : List Char :=
  if old = [] then new ++ (s.map (fun ch => ch :: new)).flatten
  else pyReplaceFuel old new s.length s

/-- Auxiliary for `pyCount`: Python `str.count` for a non-empty pattern,
counting non-overlapping occurrences left to right, with explicit fuel. -/
def pyCountFuel (old : List Char) : Nat → List Char → Nat
  | _, [] => 0
  | 0, _ :: _ => 0
  | fuel + 1, c :: rest =>
    if old.isPrefixOf (c :: rest) then
      1 + pyCountFuel old fuel ((c :: rest).drop old.length)
    else
      pyCountFuel old fuel rest

/-- Python `s.count(old)`: the number of non-overlapping occurrences of
`old` in `s`; `s.count("") = len(s) + 1`. -/
def pyCount (s old : List Char) : Nat :=
  if old = [] then s.length + 1 else pyCountFuel old s.length s

/-- `read_file` / `write_file` line-ending normalization
(`content.replace('\r\n', '\n').replace('\r', '\n')`). -/
def normalizeLF (s : List Char) : List Char :=
  pyReplace (pyReplace s ['\r', '\n'] ['\n']) ['\r'] ['\n']

/-- Python `s.split("\n")`. -/
def pySplitNl : List Char → List (List Char)
  | [] => [[]]
  | ch :: rest =>
    if ch = '\n' then [] :: pySplitNl rest
    else
      match pySplitNl rest with
      | [] => [[ch]]
      | l :: ls => (ch :: l) :: ls

/-- Python `"\n".join(parts)`. -/
def joinNl : List (List Char) → List Char
  | [] => []
  | [l] => l
  | l :: l' :: ls => l ++ '\n' :: joinNl (l' :: ls)

/-- Auxiliary for `pySplitlines` (accumulator holds the current line,
reversed).  Every break character is treated as a one-character
terminator; the two-character `"\r\n"` terminator of Python `splitlines`
is not modeled separately because every call site in the source first
normalizes `"\r\n"` (and lone `"\r"`) to `"\n"` via `read_file`, a fact
the theorems below establish before using this function. -/
def pySplitlinesAux : List Char → List Char → List (List Char)
  | acc, [] => if acc.isEmpty then [] else [acc.reverse]
  | acc, ch :: rest =>
    if isLineBreakChar ch then acc.reverse :: pySplitlinesAux [] rest
    else pySplitlinesAux (ch :: acc) rest

/-- Python `s.splitlines()` (line terminators not kept) on text whose line
terminators are single characters. -/
def pySplitlines (s : List Char) : List (List Char) :=
  pySplitlinesAux [] s

/-- Auxiliary for `pySplitlinesKeep` (accumulator holds the current line,
reversed, without its terminator); same single-character-terminator
convention as `pySplitlinesAux`. -/
def pySplitlinesKeepAux : List Char → List Char → List (List Char)
  | acc, [] => if acc.isEmpty then [] else [acc.reverse]
  | acc, ch :: rest =>
    if isLineBreakChar ch then (acc.reverse ++ [ch]) :: pySplitlinesKeepAux [] rest
    else pySplitlinesKeepAux (ch :: acc) rest

/-- Python `s.splitlines(True)` (line terminators kept) on text whose line
terminators are single characters. -/
def pySplitlinesKeep (s : List Char) : List (List Char) :=
  pySplitlinesKeepAux [] s

/-- Auxiliary for `pySplitWs` (accumulator holds the current token,
reversed). -/
def pySplitWsAux (acc : List Char) : List Char → List (List Char)
  | [] => if acc.isEmpty then [] else [acc.reverse]
  | ch :: rest =>
    if isPySpaceChar ch then
      if acc.isEmpty then pySplitWsAux [] rest
      else acc.reverse :: pySplitWsAux [] rest
    else pySplitWsAux (ch :: acc) rest

/-- Python `s.split()` (no argument): split on whitespace runs, discarding
empty tokens. -/
def pySplitWs (s : List Char) : List (List Char) :=
  pySplitWsAux [] s

/-- Auxiliary for `pyReadlines`: split after each `'\n'`, keeping it
(Python `readlines` on a universal-newlines text stream). -/
def pyReadlinesAux (acc : List Char) : List Char → List (List Char)
  | [] => if acc.isEmpty then [] else [acc.reverse]
  | ch :: rest =>
    if ch = '\n' then (acc.reverse ++ ['\n']) :: pyReadlinesAux [] rest
    else pyReadlinesAux (ch :: acc) rest

/-- Python `f.readlines()` on an LF-normalized text: lines split after each
`'\n'`, terminators kept. -/
def pyReadlines (s : List Char) : List (List Char) :=
  pyReadlinesAux [] s

/-! ## Text editor (`src/tools/text_editor.py`) -/

/-- Error taxonomy of `TextEditor` (each `raise ValueError(...)` site gets
one constructor; the offending values are carried as payloads, the exact
message text is rendered by `edErrMsg`). -/
inductive EdErr where
  | notAbsolute
  | fileNotFound
  | notAFile
  | invalidViewStart (start finish fileLines : Int)
  | invalidViewEnd (start finish fileLines : Int)
  | stringNotFound
  | insertNegative (line : Int)
  | insertTooLarge (line : Int) (numLines : Int)
  deriving DecidableEq, Repr

/-- Rendering of a `ValueError` message at the tool boundary (`str(e)`;
the text is abbreviated, only its presence matters to the claims). -/
def edErrMsg : EdErr → String
  | EdErr.notAbsolute => "the path is not an absolute path, it should start with `/`."
  | EdErr.fileNotFound => "File does not exist"
  | EdErr.notAFile => "Path is not a file"
  | EdErr.invalidViewStart a b n =>
    "Invalid `view_range`: [" ++ toString a ++ ", " ++ toString b ++
      "]. The start line should be within the range of lines in the file: [1, " ++
      toString n ++ "]"
  | EdErr.invalidViewEnd a b n =>
    "Invalid `view_range`: [" ++ toString a ++ ", " ++ toString b ++
      "]. The end line should be -1 or within the range of lines in the file: [" ++
      toString a ++ ", " ++ toString n ++ "]"
  | EdErr.stringNotFound => "String not found in file"
  | EdErr.insertNegative i =>
    "Invalid insert_line: " ++ toString i ++ ". Line number must be >= 0."
  | EdErr.insertTooLarge i n =>
    "Invalid insert_line: " ++ toString i ++
      ". Line number cannot be greater than the number of lines in the file (" ++
      toString n ++ ")."

/-- `f"{num:>3}"`: decimal digits of `num`, left-padded with spaces to
width 3. -/
def fmtLineNum (num : Nat) : List Char :=
  let s := (toString num).toList
  List.replicate (3 - s.length) ' ' ++ s

/-- `TextEditor._content_with_line_numbers` (the `rich` branch of
`_format_content_with_syntax_highlighting` produces the identical text):
each `splitlines()` line becomes `f"{i + init_line:>3} | {line}"`, joined
with `"\n"`. -/
def renderNumbered (initLine : Nat) (content : List Char) : List Char :=
  joinNl ((pySplitlines content).enum.map
    (fun p => fmtLineNum (p.1 + initLine) ++ [' ', '|', ' '] ++ p.2))

/-- The ranged branch of `TextEditor.view` on the LF-normalized content
`c`: validate the start line, then the end line (the source's
`final_line = n_lines_file` clamp assignment is inlined into its branch),
then slice `file_lines[init_line - 1 : final_line]` and render with
original line numbers. -/
def viewRangeOp (c : List Char) (a b : Int) : Except EdErr (List Char) :=
  if a < 1 ∨ ((pySplitNl c).length : Int) < a then
    Except.error (EdErr.invalidViewStart a b ((pySplitNl c).length : Int))
  else if b ≠ -1 ∧ (b < a ∨ ((pySplitNl c).length : Int) < b) then
    (if ((pySplitNl c).length : Int) < b then
      Except.ok (renderNumbered a.toNat
        (joinNl (((pySplitNl c).take ((pySplitNl c).length : Int).toNat).drop
          (a - 1).toNat)))
    else Except.error (EdErr.invalidViewEnd a b ((pySplitNl c).length : Int)))
  else if b = -1 then
    Except.ok (renderNumbered a.toNat (joinNl ((pySplitNl c).drop (a - 1).toNat)))
  else
    Except.ok (renderNumbered a.toNat
      (joinNl (((pySplitNl c).take b.toNat).drop (a - 1).toNat)))

/-- `TextEditor.view` on the raw on-disk content `d` (the `read_file`
normalization is applied first, as in the source). -/
def viewOp (d : List Char) (range : Option (Int × Int)) : Except EdErr (List Char) :=
  match range with
  | none => Except.ok (renderNumbered 1 (normalizeLF d))
  | some (a, b) => viewRangeOp (normalizeLF d) a b

/-- `new_str.endswith(('\n', '\r\n', '\r'))`: the last character is a
terminator (ending in `"\r\n"` already implies ending in `"\n"`). -/
def endsWithTerminator (s : List Char) : Bool :=
  s.getLast? = some '\n' || s.getLast? = some '\r'

/-- `new_str` with a `"\n"` appended unless it already ends with a
terminator. -/
def ensureTrailingNl (s : List Char) : List Char :=
  if endsWithTerminator s then s else s ++ ['\n']

/-- `TextEditor.str_replace` on the raw on-disk content: LF-normalize
(`read_file`), require `old_str in content`, replace every occurrence
(`None` new text deletes), count the occurrences, and return the content
that `write_file` stores (normalized again, as on a POSIX host). -/
def methodStrReplace (d oldStr : List Char) (newStr : Option (List Char)) :
    Except EdErr (Nat × List Char) :=
  let c := normalizeLF d
  if pyInStr oldStr c = false then Except.error EdErr.stringNotFound
  else
    let ns := newStr.getD []
    let newContent := pyReplace c oldStr ns
    let occurrences := pyCount c oldStr
    Except.ok (occurrences, normalizeLF newContent)

/-- `TextEditor.insert` on the raw on-disk content: LF-normalize, split
keeping separators, validate `insert_line`, splice `new_str` (with the
two terminator fix-ups of the source), and return what `write_file`
stores. -/
def insertOp (d : List Char) (insertLine : Int) (newStr : List Char) :
    Except EdErr (List Char) :=
  let c := normalizeLF d
  let linesWithSep := pySplitlinesKeep c
  let numLines : Int := linesWithSep.length
  if insertLine < 0 then Except.error (EdErr.insertNegative insertLine)
  else if numLines < insertLine then
    Except.error (EdErr.insertTooLarge insertLine numLines)
  else
    let padNew : List (List Char) :=
      if endsWithTerminator newStr then [] else [['\n']]
    let resultLines : List (List Char) :=
      if insertLine = 0 then
        [newStr] ++ padNew ++ linesWithSep
      else if insertLine = numLines then
        let padEnd : List (List Char) :=
          match linesWithSep.getLast? with
          | some lastLine => if endsWithTerminator lastLine then [] else [['\n']]
          | none => []
        linesWithSep ++ padEnd ++ [newStr] ++ padNew
      else
        linesWithSep.take insertLine.toNat ++ [newStr] ++ padNew ++
          linesWithSep.drop insertLine.toNat
    Except.ok (normalizeLF resultLines.flatten)

/-- The content the file holds after `insert` (unchanged when the call is
rejected, since `write_file` runs only after validation). -/
def insertResultContent (d : List Char) (insertLine : Int) (newStr : List Char) :
    List Char :=
  match insertOp d insertLine newStr with
  | Except.ok c => c
  | Except.error _ => d

/-- What the editor finds at the requested path: nothing, a directory, or
a regular file with its raw byte content decoded to characters. -/
inductive FsEntry where
  | file (content : List Char)
  | dir
  deriving DecidableEq

/-- `view` including the `path.exists()` / `path.is_file()` checks. -/
def viewAtPath : Option FsEntry → Option (Int × Int) → Except EdErr (List Char)
  | none, _ => Except.error EdErr.fileNotFound
  | some FsEntry.dir, _ => Except.error EdErr.notAFile
  | some (FsEntry.file d), range => viewOp d range

/-- `str_replace` including the existence checks. -/
def strReplaceAtPath : Option FsEntry → List Char → Option (List Char) →
    Except EdErr (Nat × List Char)
  | none, _, _ => Except.error EdErr.fileNotFound
  | some FsEntry.dir, _, _ => Except.error EdErr.notAFile
  | some (FsEntry.file d), oldStr, newStr => methodStrReplace d oldStr newStr

/-- `insert` including the existence checks. -/
def insertAtPath : Option FsEntry → Int → List Char → Except EdErr (List Char)
  | none, _, _ => Except.error EdErr.fileNotFound
  | some FsEntry.dir, _, _ => Except.error EdErr.notAFile
  | some (FsEntry.file d), line, newStr => insertOp d line newStr

/-- The argument record of the `text_editor` tool (`runtime` omitted;
`pathAbs` is `Path(path).is_absolute()`, `entry` what the filesystem holds
at that path). -/
structure EditorArgs where
  command : String
  pathAbs : Bool
  entry : Option FsEntry
  fileText : Option (List Char) := none
  viewRange : Option (Int × Int) := none
  oldStr : Option (List Char) := none
  newStr : Option (List Char) := none
  insertLine : Option Int := none

/-- `text_editor_tool`: validate the path, dispatch on `command` with the
source's guards, catch every editor error and render it as an
`"Error: …"` string.  Returns the result string and, when a write
happened, the content written. -/
def textEditorToolF (p : String) (a : EditorArgs) : String × Option (List Char) :=
  if a.pathAbs = false then ("Error: " ++ edErrMsg EdErr.notAbsolute, none)
  else if a.command = "view" then
    match viewAtPath a.entry a.viewRange with
    | Except.ok s =>
      ("Here's the result of running `cat -n` on " ++ p ++ ":\n\n```\n" ++
        String.mk s ++ "\n```", none)
    | Except.error e => ("Error: " ++ edErrMsg e, none)
  else if a.command = "str_replace" ∧ a.oldStr.isSome ∧ a.newStr.isSome then
    match strReplaceAtPath a.entry (a.oldStr.getD []) (some (a.newStr.getD [])) with
    | Except.ok (occ, c) =>
      ("Successfully replaced " ++ toString occ ++ " occurrences in " ++ p ++ ".",
        some c)
    | Except.error e => ("Error: " ++ edErrMsg e, none)
  else if a.command = "insert" ∧ a.insertLine.isSome ∧ a.newStr.isSome then
    match insertAtPath a.entry (a.insertLine.getD 0) (a.newStr.getD []) with
    | Except.ok c =>
      ("Successfully inserted text at line " ++ toString (a.insertLine.getD 0) ++
        " in " ++ p ++ ".", some c)
    | Except.error e => ("Error: " ++ edErrMsg e, none)
  else if a.command = "create" then
    if a.entry = some FsEntry.dir then
      ("Error: the path " ++ p ++ " is a directory. Please provide a valid file path.",
        none)
    else
      ("File successfully created at " ++ p ++ ".",
        some (normalizeLF (a.fileText.getD [])))
  else ("Error: invalid command: " ++ a.command, none)

/-- Drop a single trailing empty line, the amendment C1 needs: rendering
a slice whose last selected line is empty omits that line. -/
def dropTrailingEmptyLine (l : List (List Char)) : List (List Char) :=
  if l.getLast? = some [] then l.dropLast else l

/-- Modelled from the spec of `view` as amended: lines `a..b` of the
LF-normalized content (selecting to the last line when `b = -1` or `b`
exceeds the line count, rejecting `b < a` when `b ≠ -1`), each surviving
line prefixed with its original 1-indexed number — except that a trailing
empty selected line is omitted from the output. -/
def viewSpecAmended (c : List Char) (a b : Int) : Except EdErr (List Char) :=
  if b ≠ -1 ∧ b < a then
    Except.error (EdErr.invalidViewEnd a b ((pySplitNl c).length : Int))
  else if b = -1 ∨ ((pySplitNl c).length : Int) < b then
    Except.ok (joinNl ((dropTrailingEmptyLine
        ((pySplitNl c).drop (a - 1).toNat)).enum.map
      (fun p => fmtLineNum (p.1 + a.toNat) ++ [' ', '|', ' '] ++ p.2)))
  else
    Except.ok (joinNl ((dropTrailingEmptyLine
        (((pySplitNl c).take b.toNat).drop (a - 1).toNat)).enum.map
      (fun p => fmtLineNum (p.1 + a.toNat) ++ [' ', '|', ' '] ++ p.2)))

/-! ## Bash tool (`src/tools/bash.py`) -/

/-- `DEFAULT_ALLOWED_COMMANDS`: the allowlist of benign first tokens. -/
def DEFAULT_ALLOWED_COMMANDS : List String :=
  ["ls", "dir", "pwd", "cd", "echo", "cat", "head", "tail", "find",
   "grep", "wc", "mkdir", "rmdir", "touch", "cp", "mv", "rm",
   "chmod", "chown", "date", "time", "whoami", "env", "printenv"]

/-- `DANGEROUS_COMMANDS`: substrings whose presence rejects a command. -/
def DANGEROUS_COMMANDS : List String :=
  ["sudo", "su", "chroot", "mount", "umount", "dd", "fdisk",
   "mkfs", "rm -rf", "shutdown", "reboot", "halt", "poweroff"]

/-- `_check_security(command)`: `(allowed, reason)`. -/
def checkSecurity (command : List Char) : Bool × String :=
  if pyStrip command = [] then (false, "命令不能为空")
  else
    match DANGEROUS_COMMANDS.find? (fun dc => pyInStr dc.toList command) with
    | some dc => (false, "命令包含危险操作: " ++ dc)
    | none =>
      let cmdParts := pySplitWs (pyStrip command)
      match cmdParts.head? with
      | none => (false, "无效的命令格式")
      | some cmdName =>
        if cmdName ∈ DEFAULT_ALLOWED_COMMANDS.map String.toList then (true, "")
        else (false, "命令 '" ++ String.mk cmdName ++ "' 不在允许的列表中")

/-- The result record `_execute_command` (or the security-rejection path)
builds and `bash_tool` appends to `_command_history`. -/
structure CommandResult where
  success : Bool
  output : String
  errText : String
  returnCode : Int
  command : String
  durationMs : Nat
  systemName : String
  deriving DecidableEq, Repr

/-- The record appended on a security rejection (`return_code = -4`,
`duration_ms = 0`). -/
def securityRejectedResult (cmd msg sys : String) : CommandResult :=
  { success := false, output := "", errText := msg, returnCode := -4,
    command := cmd, durationMs := 0, systemName := sys }

/-- History update on the executed path: append, then `pop(0)` once when
the length exceeds 100. -/
def bashRecordExec (hist : List CommandResult) (r : CommandResult) :
    List CommandResult :=
  let h := hist ++ [r]
  if 100 < h.length then h.tail else h

/-- The string `bash_tool` formats from a result. -/
def formatCommandResult (r : CommandResult) : String :=
  if r.success then
    "Command executed successfully (exit code: " ++ toString r.returnCode ++
      ", duration: " ++ toString r.durationMs ++ "ms):\n```\n" ++
      (if r.output ≠ "" then r.output else "") ++ "\n```"
  else
    "Command failed (exit code: " ++ toString r.returnCode ++ ", duration: " ++
      toString r.durationMs ++ "ms):\n```\n" ++
      (if r.errText ≠ "" then r.errText else "Unknown error") ++ "\n```"

/-- One `bash_tool` call as a state transition on `_command_history`.
`_execute_command` performs process I/O, so its outcome is an oracle
parameter `execResult`; the returned `Bool` records whether a subprocess
was (to be) spawned.  Produces the new history, the returned string, and
that flag. -/
def bashToolStep (enableSecurityChecks : Bool) (hist : List CommandResult)
    (cmd sys : String) (execResult : CommandResult) :
    List CommandResult × String × Bool :=
  match enableSecurityChecks, checkSecurity cmd.toList with
  | true, (false, msg) =>
    (hist ++ [securityRejectedResult cmd msg sys], "Error: " ++ msg, false)
  | _, _ =>
    (bashRecordExec hist execResult, formatCommandResult execResult, true)

/-- Fold a sequence of `bash_tool` calls (command string paired with the
execution oracle's result) over the history, starting from the given
history, with security checks enabled as in the source's default
configuration. -/
def bashHistoryAfter (calls : List (String × CommandResult)) : List CommandResult :=
  calls.foldl (fun h c => (bashToolStep true h c.1 "Linux" c.2).1) []

/-! ## Grep tool (`src/tools/grep.py`) -/

/-- Outcome of `open(file)` on a candidate file: content (decoded with
`errors="ignore"` and universal newlines), or one of the two exception
classes `grep_tool` catches and skips. -/
inductive OpenOutcome where
  | ok (content : List Char)
  | permissionDenied
  | isADirectory
  deriving DecidableEq

/-- A file produced by path collection: the string `str(file)` rendered in
results, the basename `file.name` the ignore patterns are matched
against, and its open outcome. -/
structure GrepFile where
  display : String
  base : String
  openRes : OpenOutcome
  deriving DecidableEq

/-- What the filesystem holds at one of `grep_tool`'s input paths.  For a
directory, the enumeration (`rglob("*")` when recursive, `iterdir()`
otherwise) either yields regular files or raises — `Except.error ()`
models the `PermissionError` an unreadable directory raises, which the
source does not catch. -/
inductive GrepPathEntry where
  | notAbsolute
  | missing
  | file (base : String) (openRes : OpenOutcome)
  | dir (enumeration : Except Unit (List GrepFile))

/-- Path-collection loop of `grep_tool`: an early-`return`ed error string
(`Sum.inl`), the collected files (`Sum.inr`), or an escaped exception
(`Except.error`). -/
def grepCollect : List (String × GrepPathEntry) →
    Except Unit (Sum String (List GrepFile))
  | [] => Except.ok (Sum.inr [])
  | (s, e) :: rest =>
    match e with
    | GrepPathEntry.notAbsolute =>
      Except.ok (Sum.inl ("Error: " ++ s ++ " is not an absolute path. Provide absolute paths."))
    | GrepPathEntry.missing =>
      Except.ok (Sum.inl ("Error: " ++ s ++ " does not exist. Provide valid paths."))
    | GrepPathEntry.file base o =>
      match grepCollect rest with
      | Except.error u => Except.error u
      | Except.ok (Sum.inl msg) => Except.ok (Sum.inl msg)
      | Except.ok (Sum.inr fs) =>
        Except.ok (Sum.inr ({ display := s, base := base, openRes := o } :: fs))
    | GrepPathEntry.dir (Except.error u) => Except.error u
    | GrepPathEntry.dir (Except.ok dirFiles) =>
      match grepCollect rest with
      | Except.error u => Except.error u
      | Except.ok (Sum.inl msg) => Except.ok (Sum.inl msg)
      | Except.ok (Sum.inr fs) => Except.ok (Sum.inr (dirFiles ++ fs))

/-- The per-line search loop over one file's lines: line numbers count
from `n`, each line is stripped, optionally lowercased, matched by
substring containment, flipped by `invert`, and rendered
`f"{file}:{line_num}: {content}"`. -/
def grepLinesGo (display : String) (target : List Char)
    (caseSensitive invert : Bool) : Nat → List (List Char) → List String
  | _, [] => []
  | n, l :: ls =>
    let content := pyStrip l
    let lineToCheck := if caseSensitive then content else pyLower content
    let isMatch := pyInStr target lineToCheck != invert
    (if isMatch then
      [display ++ ":" ++ toString n ++ ": " ++ String.mk content]
     else []) ++ grepLinesGo display target caseSensitive invert (n + 1) ls

/-- All result lines `grep_tool` reports for one file: universal-newline
decoding, `readlines()`, then the matching loop with 1-based numbering. -/
def grepFileMatches (display : String) (rawContent target : List Char)
    (caseSensitive invert : Bool) : List String :=
  grepLinesGo display target caseSensitive invert 1
    (pyReadlines (normalizeLF rawContent))

/-- The search loop over the filtered candidate files; `permissionDenied`
and `isADirectory` open failures are skipped (`continue`). -/
def grepSearchAll (target : List Char) (caseSensitive invert : Bool) :
    List GrepFile → List String
  | [] => []
  | f :: fs =>
    (match f.openRes with
     | OpenOutcome.ok content =>
       grepFileMatches f.display content target caseSensitive invert
     | OpenOutcome.permissionDenied => []
     | OpenOutcome.isADirectory => []) ++
      grepSearchAll target caseSensitive invert fs

/-- `grep_tool` end to end.  `ignored` abstracts
`any(fnmatch.fnmatch(name, p) for p in DEFAULT_IGNORE_PATTERNS)` (the
`ignore` module with the pattern list is not part of the sources under
verification, and no claim depends on the patterns).  `Except.error ()`
is an exception escaping the tool boundary. -/
def grepToolF (ignored : String → Bool) (pattern : String)
    (paths : List (String × GrepPathEntry)) (caseSensitive invert : Bool) :
    Except Unit String :=
  let target := if caseSensitive then pattern.toList else pyLower pattern.toList
  match grepCollect paths with
  | Except.error u => Except.error u
  | Except.ok (Sum.inl earlyError) => Except.ok earlyError
  | Except.ok (Sum.inr files) =>
    let filtered := files.filter (fun f => !ignored f.base)
    let results := grepSearchAll target caseSensitive invert filtered
    if results.isEmpty then
      Except.ok ("No matches found for '" ++ pattern ++ "'.")
    else
      Except.ok ("Matches for '" ++ pattern ++ "' (" ++ toString results.length ++
        " total):\n```\n" ++ String.intercalate "\n" results ++ "\n```")


/-! ## Ls tool (`src/tools/ls.py`) and tree tool (`src/tools/tree.py`) -/

/-- Python string `<=` (lexicographic on code points), used by the sort
key `name.lower()`. -/
def charListLe : List Char → List Char → Bool
  | [], _ => true
  | _ :: _, [] => false
  | a :: as, b :: bs => if a < b then true else if a = b then charListLe as bs else false

/-- Truthiness of the optional `match` pattern list (`if match:`): present
and non-empty. -/
def matchActive : Option (List String) → Bool
  | none => false
  | some l => !l.isEmpty

/-- A directory entry as `ls_tool` sees it (`item.name`, `item.is_file()`,
`item.is_dir()`). -/
structure LsEntry where
  name : String
  isFile : Bool
  isDir : Bool

/-- The sort key `(x.is_file(), x.name.lower())`, ascending: directories
(`is_file = False`) first, then case-insensitive name. -/
def lsSortLe (a b : LsEntry) : Bool :=
  if a.isFile = b.isFile then charListLe (pyLower a.name.toList) (pyLower b.name.toList)
  else !a.isFile

/-- What the filesystem holds at `ls_tool`'s path (the absolute-path check
is a separate argument): missing, not a directory, or a directory whose
`iterdir()` either yields entries or raises (`Except.error ()` models the
`PermissionError` the source catches). -/
inductive LsTarget where
  | missing
  | notDir
  | dir (listing : Except Unit (List LsEntry))

/-- `ls_tool` end to end.  `fnmatchP name pattern` abstracts
`fnmatch.fnmatch`, and `defaults` the `DEFAULT_IGNORE_PATTERNS` list (its
module is not among the sources under verification; no claim depends on
the patterns).  The `Except Unit` layer is the exception channel of the
tool boundary: `ls_tool` catches its only modeled exception source (the
`PermissionError` of `iterdir`), so every branch is `Except.ok`. -/
def lsToolF (fnmatchP : String → String → Bool) (defaults : List String)
    (p : String) (pathAbs : Bool) (target : LsTarget)
    (mtch ign : Option (List String)) : Except Unit String :=
  if pathAbs = false then
    Except.ok ("Error: " ++ p ++ " is not an absolute path. Provide an absolute path.")
  else match target with
  | LsTarget.missing =>
    Except.ok ("Error: " ++ p ++ " does not exist. Provide a valid path.")
  | LsTarget.notDir =>
    Except.ok ("Error: " ++ p ++ " is not a directory. Provide a directory path.")
  | LsTarget.dir (Except.error _) =>
    Except.ok ("Error: Permission denied to access " ++ p ++ ".")
  | LsTarget.dir (Except.ok items) =>
    let sorted := items.mergeSort lsSortLe
    let matched :=
      if matchActive mtch then
        sorted.filter (fun it => (mtch.getD []).any (fun pat => fnmatchP it.name pat))
      else sorted
    let ignorePatterns := ign.getD [] ++ defaults
    let finalItems :=
      matched.filter (fun it => !(ignorePatterns.any (fun pat => fnmatchP it.name pat)))
    if finalItems.isEmpty then Except.ok ("No items found in " ++ p ++ ".")
    else
      Except.ok ("Contents of " ++ p ++ ":\n```\n" ++
        String.intercalate "\n"
          (finalItems.map (fun it => if it.isDir then it.name ++ "/" else it.name)) ++
        "\n```")

/-- A filesystem node as `tree_tool` traverses it: name, `is_file()`,
`is_dir()`, and — for directories — the `iterdir()` outcome, where
`Except.error ()` is a raised `PermissionError` (caught per level by the
source). -/
inductive FsNode where
  | mk (name : String) (isFile : Bool) (isDir : Bool)
      (listing : Except Unit (List FsNode))

def FsNode.name : FsNode → String
  | FsNode.mk n _ _ _ => n

def FsNode.isFile : FsNode → Bool
  | FsNode.mk _ f _ _ => f

def FsNode.isDir : FsNode → Bool
  | FsNode.mk _ _ d _ => d

def FsNode.listing : FsNode → Except Unit (List FsNode)
  | FsNode.mk _ _ _ l => l

/-- The per-item filter of `_recurse`: skip on an ignore hit, and — when
`match` is truthy — skip items matching no `match` pattern. -/
def treeKeep (fnmatchP : String → String → Bool) (ignorePats : List String)
    (mtch : Option (List String)) (n : FsNode) : Bool :=
  !(ignorePats.any (fun pat => fnmatchP n.name pat)) &&
  !(matchActive mtch && !((mtch.getD []).any (fun pat => fnmatchP n.name pat)))

/-- `tree_tool`'s sort key, identical to `ls_tool`'s. -/
def treeSortLe (a b : FsNode) : Bool :=
  if a.isFile = b.isFile then charListLe (pyLower a.name.toList) (pyLower b.name.toList)
  else !a.isFile

/-- `tree_tool._recurse` with explicit fuel (the Python recursion
terminates on any finite tree; `treeToolF` passes `sizeOf` of the tree,
which bounds the recursion depth): stop past `max_depth`, render a
`[Permission Denied]` marker when `iterdir` raises, else filter, sort, and
emit one connector line per item, recursing into subdirectories with the
extended indentation. -/
def treeRecFuel (fnmatchP : String → String → Bool) (ignorePats : List String)
    (mtch : Option (List String)) (maxDepth : Option Int) :
    Nat → String → Int → Except Unit (List FsNode) → List String
  | 0, _, _, _ => []
  | fuel + 1, indent, depth, listing =>
    if (match maxDepth with | some md => decide (md < depth) | none => false) then []
    else
      match listing with
      | Except.error _ => [indent ++ "├── [Permission Denied]"]
      | Except.ok items =>
        let filtered := (items.filter (treeKeep fnmatchP ignorePats mtch)).mergeSort treeSortLe
        (filtered.enum.map (fun pr =>
          let isLast := pr.1 = filtered.length - 1
          let connector := if isLast then "└──" else "├──"
          (indent ++ connector ++ " " ++ pr.2.name ++ (if pr.2.isDir then "/" else "")) ::
            (if pr.2.isDir then
              treeRecFuel fnmatchP ignorePats mtch maxDepth fuel
                (indent ++ (if isLast then "    " else "│   ")) (depth + 1) pr.2.listing
             else []))).flatten

/-- What the filesystem holds at `tree_tool`'s root path: missing, not a
directory, or a directory with its basename (`root_path.name`) and
`iterdir()` outcome. -/
inductive TreeTarget where
  | missing
  | notDir
  | dir (rootName : String) (listing : Except Unit (List FsNode))

/-- `tree_tool` end to end; `fuel` is any bound on the directory tree's
depth (the Python recursion terminates because the filesystem is finite;
the embedding takes that bound as a parameter).  The `Except Unit` layer
is the exception channel of the tool boundary, and every branch is
`Except.ok` because the source catches the `PermissionError` of each
`iterdir` inline. -/
def treeToolF (fnmatchP : String → String → Bool) (defaults : List String)
    (fuel : Nat) (root : String) (pathAbs : Bool) (target : TreeTarget)
    (maxDepth : Option Int) (mtch ign : Option (List String)) : Except Unit String :=
  if pathAbs = false then
    Except.ok ("Error: " ++ root ++ " is not an absolute path. Provide an absolute path.")
  else match target with
  | TreeTarget.missing =>
    Except.ok ("Error: " ++ root ++ " does not exist. Provide a valid path.")
  | TreeTarget.notDir =>
    Except.ok ("Error: " ++ root ++ " is not a directory. Provide a directory path.")
  | TreeTarget.dir rootName listing =>
    let ignorePats := ign.getD [] ++ defaults
    let treeLines := (rootName ++ "/") ::
      treeRecFuel fnmatchP ignorePats mtch maxDepth fuel "" 1 listing
    Except.ok ("Directory tree for " ++ root ++ ":\n```\n" ++
      String.intercalate "\n" treeLines ++ "\n```")

/-! ## Lemmas about the string primitives -/

theorem pyInStr_nil (c : List Char) : pyInStr [] c = true := by
  cases c <;> simp [pyInStr, List.isPrefixOf]

theorem flatten_map_singleton (c : List Char) :
    (c.map (fun ch => [ch])).flatten = c := by
  induction c with
  | nil => rfl
  | cons ch rest ih => simp [ih]

theorem pyReplaceFuel_self (t : List Char) (ht : t ≠ []) :
    ∀ fuel c, c.length ≤ fuel → pyReplaceFuel t t fuel c = c := by
  intro fuel
  induction fuel with
  | zero =>
    intro c hc
    cases c with
    | nil => rfl
    | cons ch rest => simp at hc
  | succ f ih =>
    intro c hc
    cases c with
    | nil => rfl
    | cons ch rest =>
      by_cases hp : t.isPrefixOf (ch :: rest)
      · have hpre : t <+: ch :: rest := by
          exact (List.isPrefixOf_iff_prefix).mp hp
        obtain ⟨u, hu⟩ := hpre
        have hdrop : (ch :: rest).drop t.length = u := by
          rw [← hu, List.drop_left]
        have hlen : u.length ≤ f := by
          have hl := congrArg List.length hu
          have hpos : 0 < t.length := List.length_pos.mpr ht
          simp at hl
          simp at hc
          omega
        simp [pyReplaceFuel, hp, hdrop, ih u hlen, ← hu]
      · have : rest.length ≤ f := by simp at hc; omega
        simp [pyReplaceFuel, hp, ih rest this]

/-- Python `s.replace(t, t) = s`. -/
theorem pyReplace_self (c t : List Char) : pyReplace c t t = c := by
  by_cases ht : t = []
  · subst ht
    simp [pyReplace, flatten_map_singleton]
  · simp [pyReplace, ht, pyReplaceFuel_self t ht c.length c le_rfl]

theorem mem_of_pyInStr_cons {o : Char} {os c : List Char}
    (h : pyInStr (o :: os) c = true) : o ∈ c := by
  induction c with
  | nil => simp [pyInStr, List.isPrefixOf] at h
  | cons ch rest ih =>
    rw [pyInStr, Bool.or_eq_true] at h
    rcases h with h | h
    · obtain ⟨u, hu⟩ := (List.isPrefixOf_iff_prefix).mp h
      have : o = ch := by
        have := congrArg (List.head?) hu
        simpa using this
      simp [this]
    · exact List.mem_cons_of_mem _ (ih h)

theorem pyReplaceFuel_of_not_in {old : List Char} (new : List Char) :
    ∀ fuel c, pyInStr old c = false → pyReplaceFuel old new fuel c = c := by
  intro fuel
  induction fuel with
  | zero => intro c _; cases c <;> rfl
  | succ f ih =>
    intro c h
    cases c with
    | nil => rfl
    | cons ch rest =>
      rw [pyInStr, Bool.or_eq_false_iff] at h
      simp [pyReplaceFuel, h.1, ih rest h.2]

/-- When `old` does not occur, `replace` is the identity. -/
theorem pyReplace_of_not_in {c old : List Char} (new : List Char)
    (h : pyInStr old c = false) : pyReplace c old new = c := by
  have hne : old ≠ [] := by
    intro he; subst he; rw [pyInStr_nil] at h; cases h
  simp [pyReplace, hne, pyReplaceFuel_of_not_in new c.length c h]

theorem pyReplaceFuel_single (x y : Char) :
    ∀ fuel c, c.length ≤ fuel →
      pyReplaceFuel [x] [y] fuel c = c.map (fun ch => if ch = x then y else ch) := by
  intro fuel
  induction fuel with
  | zero =>
    intro c hc
    cases c with
    | nil => rfl
    | cons ch rest => simp at hc
  | succ f ih
  =>
    intro c hc
    cases c with
    | nil => rfl
    | cons ch rest =>
      have hr : rest.length ≤ f := by simp at hc; omega
      by_cases hx : ch = x
      · have hp : List.isPrefixOf [x] (ch :: rest) = true := by
          simp [List.isPrefixOf, hx]
        simp [pyReplaceFuel, hp, hx, ih rest hr]
      · have hp : List.isPrefixOf [x] (ch :: rest) = false := by
          simp [List.isPrefixOf]
          intro he
          exact absurd he.symm hx
        simp [pyReplaceFuel, hp, hx, ih rest hr]

/-- Single-character `replace` is a character map. -/
theorem pyReplace_single (c : List Char) (x y : Char) :
    pyReplace c [x] [y] = c.map (fun ch => if ch = x then y else ch) := by
  simp [pyReplace, pyReplaceFuel_single x y c.length c le_rfl]

theorem not_cr_mem_normalizeLF (d : List Char) : '\r' ∉ normalizeLF d := by
  rw [normalizeLF, pyReplace_single]
  intro h
  obtain ⟨ch, _, hch⟩ := List.mem_map.mp h
  by_cases hc : ch = '\r' <;> simp [hc] at hch

/-- Contents without carriage returns are fixed points of the
normalization (so `read_file` on an LF file is the identity). -/
theorem normalizeLF_of_not_cr {c : List Char} (h : '\r' ∉ c) :
    normalizeLF c = c := by
  have h1 : pyInStr ['\r', '\n'] c = false := by
    by_contra hx
    have : pyInStr ['\r', '\n'] c = true := by
      cases hb : pyInStr ['\r', '\n'] c
      · exact absurd hb hx
      · rfl
    exact h (mem_of_pyInStr_cons this)
  rw [normalizeLF, pyReplace_of_not_in _ h1, pyReplace_single]
  calc c.map (fun ch => if ch = '\r' then '\n' else ch)
      = c.map id := by
        apply List.map_congr_left
        intro ch hch
        have : ch ≠ '\r' := fun he => h (he ▸ hch)
        simp [this]
    _ = c := List.map_id c

theorem normalizeLF_idem (d : List Char) :
    normalizeLF (normalizeLF d) = normalizeLF d :=
  normalizeLF_of_not_cr (not_cr_mem_normalizeLF d)

theorem mem_pyReplaceFuel {old new : List Char} {ch : Char} :
    ∀ fuel c, ch ∈ pyReplaceFuel old new fuel c → ch ∈ c ∨ ch ∈ new := by
  intro fuel
  induction fuel with
  | zero =>
    intro c h
    cases c with
    | nil => simp [pyReplaceFuel] at h
    | cons c0 rest => exact Or.inl h
  | succ f ih =>
    intro c h
    cases c with
    | nil => simp [pyReplaceFuel] at h
    | cons c0 rest =>
      rw [pyReplaceFuel] at h
      by_cases hp : old.isPrefixOf (c0 :: rest) = true
      · rw [if_pos hp] at h
        rcases List.mem_append.mp h with h | h
        · exact Or.inr h
        · rcases ih _ h with h' | h'
          · exact Or.inl (List.mem_of_mem_drop h')
          · exact Or.inr h'
      · rw [if_neg hp] at h
        rcases List.mem_cons.mp h with h | h
        · exact Or.inl (h ▸ List.mem_cons_self c0 rest)
        · rcases ih _ h with h' | h'
          · exact Or.inl (List.mem_cons_of_mem _ h')
          · exact Or.inr h'

/-- Every character of a normalized content comes from the original or is
the `'\n'` the normalization writes. -/
theorem mem_normalizeLF {d : List Char} {ch : Char}
    (h : ch ∈ normalizeLF d) : ch ∈ d ∨ ch = '\n' := by
  rw [normalizeLF, pyReplace_single] at h
  obtain ⟨ch0, hch0, hmap⟩ := List.mem_map.mp h
  have hch0' : ch0 ∈ pyReplace d ['\r', '\n'] ['\n'] := hch0
  have hsrc : ch0 ∈ d ∨ ch0 ∈ ['\n'] := by
    rw [pyReplace] at hch0'
    simp only [List.cons_ne_nil, if_false] at hch0'
    exact mem_pyReplaceFuel _ _ hch0'
  by_cases hc : ch0 = '\r'
  · right
    rw [if_pos hc] at hmap
    exact hmap.symm
  · rw [if_neg hc] at hmap
    subst hmap
    simpa using hsrc

/-! ## Lemmas about line splitting and joining -/

theorem pySplitNl_ne_nil (c : List Char) : pySplitNl c ≠ [] := by
  induction c with
  | nil => simp [pySplitNl]
  | cons ch rest ih =>
    rw [pySplitNl]
    by_cases h : ch = '\n'
    · simp [h]
    · rw [if_neg h]
      cases hr : pySplitNl rest with
      | nil => simp
      | cons l ls => simp

theorem mem_pySplitNl (c : List Char) :
    ∀ l ∈ pySplitNl c, ∀ ch ∈ l, ch ∈ c ∧ ch ≠ '\n' := by
  induction c with
  | nil =>
    intro l hl ch hch
    simp [pySplitNl] at hl
    subst hl
    simp at hch
  | cons c0 rest ih =>
    intro l hl ch hch
    rw [pySplitNl] at hl
    by_cases h0 : c0 = '\n'
    · rw [if_pos h0] at hl
      rcases List.mem_cons.mp hl with h | h
      · subst h; simp at hch
      · obtain ⟨h1, h2⟩ := ih l h ch hch
        exact ⟨List.mem_cons_of_mem _ h1, h2⟩
    · rw [if_neg h0] at hl
      cases hr : pySplitNl rest with
      | nil => exact absurd hr (pySplitNl_ne_nil rest)
      | cons m ms =>
        rw [hr] at hl
        rcases List.mem_cons.mp hl with h | h
        · subst h
          rcases List.mem_cons.mp hch with h | h
          · subst h; exact ⟨List.mem_cons_self _ _, h0⟩
          · have hm : m ∈ pySplitNl rest := by
              rw [hr]; exact List.mem_cons_self _ _
            obtain ⟨h1, h2⟩ := ih m hm ch h
            exact ⟨List.mem_cons_of_mem _ h1, h2⟩
        · have hmem : l ∈ pySplitNl rest := by
            rw [hr]; exact List.mem_cons_of_mem _ h
          obtain ⟨h1, h2⟩ := ih l hmem ch hch
          exact ⟨List.mem_cons_of_mem _ h1, h2⟩

theorem length_pySplitNl (c : List Char) :
    (pySplitNl c).length = c.count '\n' + 1 := by
  induction c with
  | nil => simp [pySplitNl]
  | cons c0 rest ih =>
    rw [pySplitNl]
    by_cases h0 : c0 = '\n'
    · rw [if_pos h0]
      simp [List.count_cons, h0, ih]
    · rw [if_neg h0]
      cases hr : pySplitNl rest with
      | nil => exact absurd hr (pySplitNl_ne_nil rest)
      | cons m ms =>
        have hlen : (m :: ms).length = rest.count '\n' + 1 := by rw [← hr]; exact ih
        simp only [List.length_cons] at hlen ⊢
        simp [List.count_cons, h0]
        omega

theorem pySplitlinesAux_append (p : List Char)
    (hp : ∀ ch ∈ p, isLineBreakChar ch = false) :
    ∀ acc s, pySplitlinesAux acc (p ++ s) = pySplitlinesAux (p.reverse ++ acc) s := by
  induction p with
  | nil => intro acc s; simp
  | cons c0 p' ih =>
    intro acc s
    have h0 : ¬ isLineBreakChar c0 = true := by
      simp [hp c0 (List.mem_cons_self _ _)]
    rw [List.cons_append, pySplitlinesAux, if_neg h0]
    rw [ih (fun ch hch => hp ch (List.mem_cons_of_mem _ hch)) (c0 :: acc) s]
    simp

theorem dropTrailingEmptyLine_cons_cons (p q : List Char) (rest : List (List Char)) :
    dropTrailingEmptyLine (p :: q :: rest) = p :: dropTrailingEmptyLine (q :: rest) := by
  unfold dropTrailingEmptyLine
  rw [List.getLast?_cons_cons]
  by_cases h : (q :: rest).getLast? = some []
  · rw [if_pos h, if_pos h]
    rfl
  · rw [if_neg h, if_neg h]

/-- Splitting the `"\n"`-join of break-free lines recovers the lines,
except that a single trailing empty line is dropped. -/
theorem pySplitlines_joinNl :
    ∀ l : List (List Char), l ≠ [] →
      (∀ p ∈ l, ∀ ch ∈ p, isLineBreakChar ch = false) →
      pySplitlines (joinNl l) = dropTrailingEmptyLine l := by
  intro l
  induction l with
  | nil => intro h; exact absurd rfl h
  | cons p rest ih =>
    intro _ hbf
    have hpbf : ∀ ch ∈ p, isLineBreakChar ch = false :=
      hbf p (List.mem_cons_self _ _)
    cases rest with
    | nil =>
      show pySplitlinesAux [] (joinNl [p]) = dropTrailingEmptyLine [p]
      have hj : joinNl [p] = p := rfl
      rw [hj]
      have : pySplitlinesAux [] p = pySplitlinesAux (p.reverse ++ []) [] := by
        have := pySplitlinesAux_append p hpbf [] []
        simpa using this
      rw [this]
      rw [pySplitlinesAux]
      by_cases hp0 : p = []
      · subst hp0
        simp [dropTrailingEmptyLine]
      · have h1 : (p.reverse ++ []).isEmpty = false := by
          simp [List.isEmpty_iff, hp0]
        rw [h1]
        simp [dropTrailingEmptyLine, hp0]
    | cons q rest' =>
      have hj : joinNl (p :: q :: rest') = p ++ '\n' :: joinNl (q :: rest') := rfl
      show pySplitlinesAux [] (joinNl (p :: q :: rest')) =
        dropTrailingEmptyLine (p :: q :: rest')
      rw [hj, pySplitlinesAux_append p hpbf [] ('\n' :: joinNl (q :: rest'))]
      rw [pySplitlinesAux, if_pos (by decide : isLineBreakChar '\n' = true)]
      rw [dropTrailingEmptyLine_cons_cons]
      have htail : pySplitlinesAux [] (joinNl (q :: rest')) =
          dropTrailingEmptyLine (q :: rest') :=
        ih (by simp) (fun m hm => hbf m (List.mem_cons_of_mem _ hm))
      rw [htail]
      simp

theorem pySplitlinesKeepAux_flatten :
    ∀ s acc, (pySplitlinesKeepAux acc s).flatten = acc.reverse ++ s := by
  intro s
  induction s with
  | nil =>
    intro acc
    rw [pySplitlinesKeepAux]
    by_cases h : acc.isEmpty
    · have : acc = [] := List.isEmpty_iff.mp h
      subst this
      simp
    · have hb : acc.isEmpty = false := by
        cases hx : acc.isEmpty
        · rfl
        · exact absurd hx h
      rw [hb]
      simp
  | cons c0 rest ih =>
    intro acc
    rw [pySplitlinesKeepAux]
    by_cases hb : isLineBreakChar c0 = true
    · rw [if_pos hb]
      have := ih []
      simp only [List.flatten_cons, this]
      simp
    · rw [if_neg hb, ih (c0 :: acc)]
      simp

/-- `''.join(content.splitlines(True)) = content`. -/
theorem pySplitlinesKeep_flatten (c : List Char) :
    (pySplitlinesKeep c).flatten = c := by
  simpa using pySplitlinesKeepAux_flatten c []

theorem pySplitlinesKeep_eq_nil_iff (c : List Char) :
    pySplitlinesKeep c = [] ↔ c = [] := by
  constructor
  · intro h
    have := pySplitlinesKeep_flatten c
    rw [h] at this
    simpa using this.symm
  · intro h
    subst h
    rfl

theorem pySplitlinesKeepAux_getLast :
    ∀ s acc : List Char,
      (acc.reverse ++ s = [] ∧ pySplitlinesKeepAux acc s = []) ∨
      ∃ l, (pySplitlinesKeepAux acc s).getLast? = some l ∧ l ≠ [] ∧
        l.getLast? = (acc.reverse ++ s).getLast? := by
  intro s
  induction s with
  | nil =>
    intro acc
    rw [pySplitlinesKeepAux]
    by_cases he : acc.isEmpty
    · left
      have : acc = [] := List.isEmpty_iff.mp he
      subst this
      simp
    · right
      have hne : acc ≠ [] := by
        intro h; subst h; exact he rfl
      have hb : acc.isEmpty = false := by
        cases hx : acc.isEmpty
        · rfl
        · exact absurd hx he
      rw [hb]
      refine ⟨acc.reverse, by simp, by simp [hne], by simp⟩
  | cons c0 rest ih =>
    intro acc
    rw [pySplitlinesKeepAux]
    by_cases hb : isLineBreakChar c0 = true
    · rw [if_pos hb]
      rcases ih [] with ⟨h1, h2⟩ | ⟨l, hl, hlne, hlast⟩
      · have hrest : rest = [] := by simpa using h1
        subst hrest
        rw [h2]
        right
        refine ⟨acc.reverse ++ [c0], by simp, by simp, ?_⟩
        simp
      · right
        have hrest_ne : rest ≠ [] := by
          intro h
          subst h
          have hnone : l.getLast? = none := by simpa using hlast
          exact hlne (List.getLast?_eq_none_iff.mp hnone)
        refine ⟨l, ?_, hlne, ?_⟩
        · rw [List.getLast?_cons, hl]
          rfl
        · rw [List.getLast?_append_of_ne_nil _ (by simp : c0 :: rest ≠ [])]
          rw [show c0 :: rest = [c0] ++ rest from rfl]
          rw [List.getLast?_append_of_ne_nil _ hrest_ne]
          simpa using hlast
    · rw [if_neg hb]
      rcases ih (c0 :: acc) with ⟨h1, h2⟩ | ⟨l, hl, hlne, hlast⟩
      · exact absurd h1 (by simp)
      · right
        refine ⟨l, hl, hlne, ?_⟩
        rw [hlast]
        simp

/-- The last `splitlines(True)` chunk of a non-empty content ends with the
content's last character. -/
theorem pySplitlinesKeep_getLast {c : List Char} (hc : c ≠ []) :
    ∃ l, (pySplitlinesKeep c).getLast? = some l ∧ l ≠ [] ∧
      l.getLast? = c.getLast? := by
  rcases pySplitlinesKeepAux_getLast c [] with ⟨h1, _⟩ | ⟨l, hl, hlne, hlast⟩
  · simp at h1
    exact absurd h1 hc
  · exact ⟨l, hl, hlne, by simpa using hlast⟩

theorem pySplitlinesKeepAux_length :
    ∀ s acc : List Char, s.getLast? = some '\n' →
      (∀ ch ∈ s, isLineBreakChar ch = true → ch = '\n') →
      (pySplitlinesKeepAux acc s).length = s.count '\n' := by
  intro s
  induction s with
  | nil =>
    intro acc hend _
    simp at hend
  | cons c0 rest ih =>
    intro acc hend hstd
    rw [pySplitlinesKeepAux]
    by_cases h0 : c0 = '\n'
    · subst h0
      rw [if_pos (by decide : isLineBreakChar '\n' = true)]
      cases rest with
      | nil =>
        show ((acc.reverse ++ ['\n']) :: pySplitlinesKeepAux [] []).length =
          List.count '\n' ['\n']
        simp [pySplitlinesKeepAux]
      | cons q rest' =>
        have hend' : (q :: rest').getLast? = some '\n' := by
          rw [List.getLast?_cons_cons] at hend
          exact hend
        have hstd' : ∀ ch ∈ q :: rest', isLineBreakChar ch = true → ch = '\n' :=
          fun ch hch => hstd ch (List.mem_cons_of_mem _ hch)
        simp only [List.length_cons, ih [] hend' hstd']
        simp [List.count_cons]
    · have hnb : ¬ isLineBreakChar c0 = true := by
        intro hb
        exact h0 (hstd c0 (List.mem_cons_self _ _) hb)
      rw [if_neg hnb]
      cases rest with
      | nil =>
        exfalso
        simp at hend
        exact h0 hend
      | cons q rest' =>
        have hend' : (q :: rest').getLast? = some '\n' := by
          rw [List.getLast?_cons_cons] at hend
          exact hend
        have hstd' : ∀ ch ∈ q :: rest', isLineBreakChar ch = true → ch = '\n' :=
          fun ch hch => hstd ch (List.mem_cons_of_mem _ hch)
        rw [ih (c0 :: acc) hend' hstd']
        simp [List.count_cons, h0]

/-- For a non-empty LF-terminated content with only standard terminators,
`splitlines(True)` yields exactly `count '\n'` lines — the count `insert`
validates against. -/
theorem length_pySplitlinesKeep {c : List Char}
    (hend : c.getLast? = some '\n')
    (hstd : ∀ ch ∈ c, isLineBreakChar ch = true → ch = '\n') :
    (pySplitlinesKeep c).length = c.count '\n' :=
  pySplitlinesKeepAux_length c [] hend hstd

/-- `sep.join(parts)` for an arbitrary separator (Python `str.join`). -/
def joinWith (sep : List Char) : List (List Char) → List Char
  | [] => []
  | [l] => l
  | l :: l' :: ls => l ++ sep ++ joinWith sep (l' :: ls)

theorem joinWith_cons_of_ne_nil (sep l : List Char) {t : List (List Char)}
    (ht : t ≠ []) : joinWith sep (l :: t) = l ++ sep ++ joinWith sep t := by
  cases t with
  | nil => exact absurd rfl ht
  | cons m ms => rfl

/-- `s.replace("", ns)` interleaves `ns` at every character boundary:
it is the `ns`-join of the empty string, the single characters of `s`,
and the empty string. -/
theorem pyReplace_empty_old (c ns : List Char) :
    pyReplace c [] ns =
      joinWith ns ([[]] ++ c.map (fun ch => [ch]) ++ [[]]) := by
  rw [pyReplace, if_pos rfl]
  induction c with
  | nil => simp [joinWith]
  | cons c0 rest ih =>
    have htail : rest.map (fun ch => [ch]) ++ [[]] ≠ [] := by simp
    have hstep1 : joinWith ns ([[]] ++ (c0 :: rest).map (fun ch => [ch]) ++ [[]]) =
        ns ++ joinWith ns ([c0] :: (rest.map (fun ch => [ch]) ++ [[]])) := by
      rw [show [[]] ++ (c0 :: rest).map (fun ch => [ch]) ++ [[]] =
        [] :: [c0] :: (rest.map (fun ch => [ch]) ++ [[]]) by simp]
      rw [joinWith_cons_of_ne_nil _ _ (by simp)]
      simp
    have hstep2 : joinWith ns ([c0] :: (rest.map (fun ch => [ch]) ++ [[]])) =
        [c0] ++ ns ++ joinWith ns (rest.map (fun ch => [ch]) ++ [[]]) :=
      joinWith_cons_of_ne_nil ns [c0] htail
    have hih : (rest.map (fun ch => ch :: ns)).flatten =
        joinWith ns (rest.map (fun ch => [ch]) ++ [[]]) := by
      have h1 : joinWith ns ([[]] ++ rest.map (fun ch => [ch]) ++ [[]]) =
          ns ++ joinWith ns (rest.map (fun ch => [ch]) ++ [[]]) := by
        rw [show ([[]] : List (List Char)) ++ rest.map (fun ch => [ch]) ++ [[]] =
          [] :: (rest.map (fun ch => [ch]) ++ [[]]) by simp]
        rw [joinWith_cons_of_ne_nil _ _ htail]
        simp
      have h2 := ih
      rw [h1] at h2
      exact List.append_cancel_left h2
    rw [hstep1, hstep2]
    simp only [List.map_cons, List.flatten_cons]
    rw [hih]
    simp

/-! ## Lemmas about the bash tool -/

theorem bashToolStep_pass {cmd : String} (hist : List CommandResult)
    (sys : String) (r : CommandResult)
    (h : (checkSecurity cmd.toList).1 = true) :
    bashToolStep true hist cmd sys r =
      (bashRecordExec hist r, formatCommandResult r, true) := by
  rcases hc : checkSecurity cmd.toList with ⟨a, msg⟩
  have hc' : checkSecurity cmd.data = (a, msg) := hc
  rw [hc] at h
  simp at h
  subst h
  simp [bashToolStep, hc']

theorem bashRecordExec_foldl :
    ∀ (rs : List CommandResult) (hist : List CommandResult), hist.length ≤ 100 →
      rs.foldl bashRecordExec hist =
        (hist ++ rs).drop (hist.length + rs.length - 100) := by
  intro rs
  induction rs with
  | nil =>
    intro hist h
    simp only [List.foldl_nil, List.append_nil, List.length_nil]
    have h0 : hist.length + 0 - 100 = 0 := by omega
    rw [h0, List.drop_zero]
  | cons r rs' ih =>
    intro hist h
    rw [List.foldl_cons]
    by_cases hlen : hist.length < 100
    · have hcond : ¬ (100 < (hist ++ [r]).length) := by simp; omega
      have hbe : bashRecordExec hist r = hist ++ [r] := by
        simp only [bashRecordExec]
        rw [if_neg hcond]
      rw [hbe, ih _ (by simp; omega)]
      have e1 : (hist ++ [r]) ++ rs' = hist ++ r :: rs' := by simp
      have e2 : (hist ++ [r]).length + rs'.length - 100 =
          hist.length + (r :: rs').length - 100 := by simp; omega
      rw [e1, e2]
    · have h100 : hist.length = 100 := by omega
      cases hist with
      | nil => simp at h100
      | cons a tl =>
        simp only [List.length_cons] at h100
        have hl : tl.length = 99 := by omega
        have hcond : 100 < ((a :: tl) ++ [r]).length := by
          simp only [List.length_append, List.length_cons, List.length_nil]
          omega
        have hbe : bashRecordExec (a :: tl) r = tl ++ [r] := by
          simp only [bashRecordExec]
          rw [if_pos hcond]
          simp
        rw [hbe, ih _ (by
          simp only [List.length_append, List.length_cons, List.length_nil]
          omega)]
        have e1 : (tl ++ [r]) ++ rs' = tl ++ r :: rs' := by simp
        have e2 : (tl ++ [r]).length + rs'.length - 100 = rs'.length := by
          simp only [List.length_append, List.length_cons, List.length_nil, hl]
          omega
        have e3 : (a :: tl).length + (r :: rs').length - 100 = rs'.length + 1 := by
          simp only [List.length_cons, hl]
          omega
        rw [e1, e2, e3, List.cons_append, List.drop_succ_cons]

theorem bashToolStep_reject {cmd : String} (hist : List CommandResult)
    (sys : String) (r : CommandResult)
    (h : (checkSecurity cmd.toList).1 = false) :
    (bashToolStep true hist cmd sys r).1 =
      hist ++ [securityRejectedResult cmd (checkSecurity cmd.toList).2 sys] := by
  rcases hc : checkSecurity cmd.toList with ⟨a, msg⟩
  have hc' : checkSecurity cmd.data = (a, msg) := hc
  rw [hc] at h
  simp at h
  subst h
  simp [bashToolStep, hc', hc]

theorem bashReject_foldl_length :
    ∀ (n : Nat) (hist : List CommandResult),
      ((List.replicate n ("sudo ls", securityRejectedResult "" "" "")).foldl
        (fun h c => (bashToolStep true h c.1 "Linux" c.2).1) hist).length =
        hist.length + n := by
  intro n
  induction n with
  | zero => intro hist; simp
  | succ m ih =>
    intro hist
    simp only [List.replicate_succ, List.foldl_cons]
    have hstep : (bashToolStep true hist "sudo ls" "Linux"
        (securityRejectedResult "" "" "")).1 =
        hist ++ [securityRejectedResult "sudo ls"
          (checkSecurity "sudo ls".toList).2 "Linux"] :=
      bashToolStep_reject hist "Linux" _ (by decide)
    rw [hstep, ih]
    simp only [List.length_append, List.length_cons, List.length_nil]
    omega

/-! ## C3 and C4: claim theorems for the bash tool -/

/-- C3 (counterexample): 101 consecutive security-rejected calls leave 101
entries in the history — the rejection path appends without evicting, so
the capacity-100 bound of the claim fails. -/
theorem commandHistory_overflows_on_rejections :
    100 < (bashHistoryAfter
      (List.replicate 101 ("sudo ls", securityRejectedResult "" "" ""))).length := by
  rw [bashHistoryAfter, bashReject_foldl_length 101 []]
  simp

/-- C3 (amended): for call sequences whose commands all pass the security
check, the history is the most recent (at most 100) results, oldest
evicted first; in particular 150 such calls leave exactly the last 100. -/
theorem commandHistory_cap_execOnly (calls : List (String × CommandResult))
    (h : ∀ p ∈ calls, (checkSecurity p.1.toList).1 = true) :
    bashHistoryAfter calls = (calls.map Prod.snd).drop (calls.length - 100) := by
  have key : ∀ (cs : List (String × CommandResult)) (hist : List CommandResult),
      (∀ p ∈ cs, (checkSecurity p.1.toList).1 = true) →
      cs.foldl (fun h c => (bashToolStep true h c.1 "Linux" c.2).1) hist =
        (cs.map Prod.snd).foldl bashRecordExec hist := by
    intro cs
    induction cs with
    | nil => intro hist _; rfl
    | cons p ps ih =>
      intro hist hall
      have hstep : (bashToolStep true hist p.1 "Linux" p.2).1 =
          bashRecordExec hist p.2 := by
        rw [bashToolStep_pass hist "Linux" p.2 (hall p (List.mem_cons_self _ _))]
      rw [List.foldl_cons, List.map_cons, List.foldl_cons, hstep]
      exact ih _ (fun q hq => hall q (List.mem_cons_of_mem _ hq))
  rw [bashHistoryAfter, key calls [] h,
    bashRecordExec_foldl (calls.map Prod.snd) [] (by simp)]
  simp

/-- Witness for C3's amended theorem at two allowlisted calls. -/
theorem commandHistory_cap_execOnly_witness :
    bashHistoryAfter
        [("ls", securityRejectedResult "a" "b" "c"),
         ("pwd", securityRejectedResult "d" "e" "f")] =
      [securityRejectedResult "a" "b" "c", securityRejectedResult "d" "e" "f"] := by
  have h := commandHistory_cap_execOnly
    [("ls", securityRejectedResult "a" "b" "c"),
     ("pwd", securityRejectedResult "d" "e" "f")] (by decide)
  exact h.trans (by decide)

/-- C4: an empty/whitespace-only command, a command containing a dangerous
substring, or one whose first whitespace-delimited token is outside the
allowlist, fails the security check; the bash tool then reports
`"Error: …"` with the rejection reason and spawns no subprocess. -/
theorem bashSecurity_rejects (cmd : String) (hist : List CommandResult)
    (sys : String) (r : CommandResult)
    (h : pyStrip cmd.toList = [] ∨
         (∃ dc ∈ DANGEROUS_COMMANDS, pyInStr dc.toList cmd.toList = true) ∨
         (∃ tk, (pySplitWs (pyStrip cmd.toList)).head? = some tk ∧
            tk ∉ DEFAULT_ALLOWED_COMMANDS.map String.toList)) :
    (checkSecurity cmd.toList).1 = false ∧
    (bashToolStep true hist cmd sys r).2.2 = false ∧
    (bashToolStep true hist cmd sys r).2.1 =
      "Error: " ++ (checkSecurity cmd.toList).2 := by
  have hfst : (checkSecurity cmd.toList).1 = false := by
    by_contra hx
    have htrue : (checkSecurity cmd.toList).1 = true := by
      cases hb : (checkSecurity cmd.toList).1
      · exact absurd hb hx
      · rfl
    unfold checkSecurity at htrue
    by_cases h1 : pyStrip cmd.toList = []
    · rw [if_pos h1] at htrue
      simp at htrue
    · rw [if_neg h1] at htrue
      cases hf : DANGEROUS_COMMANDS.find? (fun dc => pyInStr dc.toList cmd.toList) with
      | some dc =>
        rw [hf] at htrue
        simp at htrue
      | none =>
        rw [hf] at htrue
        cases hh : (pySplitWs (pyStrip cmd.toList)).head? with
        | none =>
          simp only [hh] at htrue
          exact absurd htrue (by decide)
        | some tk =>
          simp only [hh] at htrue
          by_cases hm : tk ∈ DEFAULT_ALLOWED_COMMANDS.map String.toList
          · rcases h with hcase | hcase | hcase
            · exact h1 hcase
            · obtain ⟨dc, hdc, hin⟩ := hcase
              exact (List.find?_eq_none.mp hf dc hdc) hin
            · obtain ⟨tk', htk', hnm⟩ := hcase
              rw [hh] at htk'
              injection htk' with he
              subst he
              exact hnm hm
          · rw [if_neg hm] at htrue
            simp at htrue
  rcases hc : checkSecurity cmd.toList with ⟨aa, msg⟩
  have hc' : checkSecurity cmd.data = (aa, msg) := hc
  rw [hc] at hfst
  simp at hfst
  subst hfst
  refine ⟨rfl, ?_, ?_⟩
  · simp [bashToolStep, hc']
  · simp [bashToolStep, hc']

/-- Witness for C4 at the destructive-delete command `"rm -rf /tmp"`. -/
theorem bashSecurity_rejects_witness :
    (checkSecurity "rm -rf /tmp".toList).1 = false ∧
    (bashToolStep true [] "rm -rf /tmp" "Linux"
      (securityRejectedResult "" "" "")).2.2 = false ∧
    (bashToolStep true [] "rm -rf /tmp" "Linux"
      (securityRejectedResult "" "" "")).2.1 =
      "Error: " ++ (checkSecurity "rm -rf /tmp".toList).2 :=
  bashSecurity_rejects "rm -rf /tmp" [] "Linux" (securityRejectedResult "" "" "")
    (Or.inr (Or.inl ⟨"rm -rf", by decide, by decide⟩))

/-! ## C5, C9, C2: claim theorems for str_replace -/

/-- C5 (counterexample): on a CRLF file, `str_replace(F, "a", "a")`
rewrites the file with LF endings — the on-disk content is not
byte-identical. -/
theorem strReplace_noop_crlf_cex :
    methodStrReplace "a\r\nb".toList "a".toList (some "a".toList) =
      Except.ok (1, "a\nb".toList) ∧
    "a\nb".toList ≠ "a\r\nb".toList := by
  exact ⟨rfl, by decide⟩

/-- C5 (amended): when `S` occurs in the LF-normalized content,
`str_replace(F, S, S)` succeeds, reports the occurrence count of `S` in
the normalized content, and stores exactly the normalized content — which
equals the original bytes whenever the file contains no carriage
returns. -/
theorem strReplace_noop_normalized (d S : List Char)
    (hS : pyInStr S (normalizeLF d) = true) :
    methodStrReplace d S (some S) =
      Except.ok (pyCount (normalizeLF d) S, normalizeLF d) ∧
    ('\r' ∉ d → normalizeLF d = d) := by
  constructor
  · simp only [methodStrReplace]
    rw [if_neg (by simp [hS])]
    simp only [Option.getD_some]
    rw [pyReplace_self, normalizeLF_idem]
  · intro h
    exact normalizeLF_of_not_cr h

/-- Witness for C5's amended theorem. -/
theorem strReplace_noop_normalized_witness :
    methodStrReplace "hello world".toList "world".toList (some "world".toList) =
      Except.ok (pyCount (normalizeLF "hello world".toList) "world".toList,
        normalizeLF "hello world".toList) ∧
    ('\r' ∉ "hello world".toList →
      normalizeLF "hello world".toList = "hello world".toList) :=
  strReplace_noop_normalized "hello world".toList "world".toList (by decide)

/-- C9: `str_replace` with an empty `old_str` never fails the containment
check: it reports the normalized content's length plus one occurrences
and interleaves `new_str` at every character boundary. -/
theorem strReplace_empty_old_inserts (d ns : List Char) :
    methodStrReplace d [] (some ns) =
      Except.ok ((normalizeLF d).length + 1,
        normalizeLF (joinWith ns
          ([[]] ++ (normalizeLF d).map (fun ch => [ch]) ++ [[]]))) := by
  simp only [methodStrReplace]
  rw [if_neg (by simp [pyInStr_nil])]
  simp only [Option.getD_some]
  rw [pyReplace_empty_old]
  simp [pyCount]

/-- C2: the tool dispatcher's guard `new_str is not None` makes
`str_replace` with a null `new_str` fall through to the
invalid-command branch (no write happens), even though the underlying
`TextEditor.str_replace` implements deletion for a `None` replacement —
here deleting the unique occurrence of `"world"`. -/
theorem strReplace_nullNew_invalidCommand :
    (textEditorToolF "/tmp/demo.txt"
        { command := "str_replace", pathAbs := true,
          entry := some (FsEntry.file "hello world".toList),
          oldStr := some "world".toList, newStr := none }).1 =
      "Error: invalid command: str_replace" ∧
    (textEditorToolF "/tmp/demo.txt"
        { command := "str_replace", pathAbs := true,
          entry := some (FsEntry.file "hello world".toList),
          oldStr := some "world".toList, newStr := none }).2 = none ∧
    strReplaceAtPath (some (FsEntry.file "hello world".toList))
        "world".toList none =
      Except.ok (1, "hello ".toList) := by
  refine ⟨?_, ?_, ?_⟩ <;> rfl

/-! ## C6 and C10: claim theorems for insert and the line-count mismatch -/

theorem insertOp_zero (d t : List Char) :
    insertOp d 0 t = Except.ok (normalizeLF (ensureTrailingNl t ++ normalizeLF d)) := by
  simp only [insertOp]
  rw [if_neg (by omega : ¬ (0:Int) < 0)]
  rw [if_neg (by omega : ¬ ((pySplitlinesKeep (normalizeLF d)).length : Int) < 0)]
  simp only [if_true]
  congr 2
  by_cases he : endsWithTerminator t = true
  · simp [he, ensureTrailingNl, pySplitlinesKeep_flatten]
  · simp [he, ensureTrailingNl, pySplitlinesKeep_flatten]

theorem insertOp_append (d t : List Char) :
    insertOp d ((pySplitlinesKeep (normalizeLF d)).length : Int) t =
      Except.ok (normalizeLF (normalizeLF d ++
        (if normalizeLF d ≠ [] ∧ endsWithTerminator (normalizeLF d) = false
         then ['\n'] else []) ++ ensureTrailingNl t)) := by
  by_cases h0 : (pySplitlinesKeep (normalizeLF d)).length = 0
  · have hc0 : normalizeLF d = [] :=
      (pySplitlinesKeep_eq_nil_iff (normalizeLF d)).mp (List.length_eq_zero.mp h0)
    rw [h0]
    rw [show ((0:Nat) : Int) = 0 from rfl, insertOp_zero, hc0]
    simp
  · have hcne : normalizeLF d ≠ [] := by
      intro h
      exact h0 (by rw [h]; rfl)
    obtain ⟨lastLine, hgl, hlne, hlast⟩ := pySplitlinesKeep_getLast hcne
    simp only [insertOp]
    rw [if_neg (by omega : ¬ ((pySplitlinesKeep (normalizeLF d)).length : Int) < 0)]
    rw [if_neg (by omega : ¬ ((pySplitlinesKeep (normalizeLF d)).length : Int) <
      ((pySplitlinesKeep (normalizeLF d)).length : Int))]
    rw [if_neg (by
      intro hh
      have : (pySplitlinesKeep (normalizeLF d)).length = 0 := by exact_mod_cast hh
      exact h0 this)]
    simp only [if_true]
    rw [hgl]
    have hterm : endsWithTerminator lastLine = endsWithTerminator (normalizeLF d) := by
      simp only [endsWithTerminator, hlast]
    congr 1
    have hmatch : (match some lastLine with
        | some l => if endsWithTerminator l = true then ([] : List (List Char)) else [['\n']]
        | none => []) =
        if endsWithTerminator lastLine = true then [] else [['\n']] := rfl
    rw [hmatch, hterm]
    by_cases hec : endsWithTerminator (normalizeLF d) = true
    · by_cases het : endsWithTerminator t = true
      · simp [het, hec, ensureTrailingNl, pySplitlinesKeep_flatten, hcne]
      · simp [het, hec, ensureTrailingNl, pySplitlinesKeep_flatten, hcne]
    · have hec' : endsWithTerminator (normalizeLF d) = false := by
        cases hx : endsWithTerminator (normalizeLF d)
        · rfl
        · exact absurd hx hec
      rw [hec']
      by_cases het : endsWithTerminator t = true
      · simp [het, hec', ensureTrailingNl, pySplitlinesKeep_flatten, hcne]
      · simp [het, hec', ensureTrailingNl, pySplitlinesKeep_flatten, hcne]

theorem insertOp_invalid (d t : List Char) (i : Int)
    (h : i < 0 ∨ ((pySplitlinesKeep (normalizeLF d)).length : Int) < i) :
    (insertOp d i t).isOk = false ∧ insertResultContent d i t = d := by
  have herr : ∃ e, insertOp d i t = Except.error e := by
    simp only [insertOp]
    rcases h with h | h
    · rw [if_pos h]
      exact ⟨_, rfl⟩
    · rw [if_neg (by omega : ¬ i < 0), if_pos h]
      exact ⟨_, rfl⟩
  obtain ⟨e, he⟩ := herr
  constructor
  · rw [he]; rfl
  · rw [insertResultContent, he]

/-- C6: `insert` at line 0 prepends the text (with a terminator ensured)
before the old content; `insert` at `total_lines` appends it, first
terminating the old last line when it lacked a terminator; any negative
line or one above `total_lines` is rejected and the file is unchanged. -/
theorem insert_line_semantics (d t : List Char) :
    insertOp d 0 t = Except.ok (normalizeLF (ensureTrailingNl t ++ normalizeLF d)) ∧
    insertOp d ((pySplitlinesKeep (normalizeLF d)).length : Int) t =
      Except.ok (normalizeLF (normalizeLF d ++
        (if normalizeLF d ≠ [] ∧ endsWithTerminator (normalizeLF d) = false
         then ['\n'] else []) ++ ensureTrailingNl t)) ∧
    ∀ i : Int, (i < 0 ∨ ((pySplitlinesKeep (normalizeLF d)).length : Int) < i) →
      (insertOp d i t).isOk = false ∧ insertResultContent d i t = d :=
  ⟨insertOp_zero d t, insertOp_append d t, fun i hi => insertOp_invalid d t i hi⟩

/-- Witness for C6 on the file `"ab\n"`. -/
theorem insert_line_semantics_witness :
    insertOp "ab\n".toList 0 "x".toList =
      Except.ok (normalizeLF (ensureTrailingNl "x".toList ++
        normalizeLF "ab\n".toList)) ∧
    (insertOp "ab\n".toList (-1) "x".toList).isOk = false ∧
    insertResultContent "ab\n".toList (-1) "x".toList = "ab\n".toList := by
  obtain ⟨h1, _, h3⟩ := insert_line_semantics "ab\n".toList "x".toList
  have h4 := h3 (-1) (Or.inl (by decide))
  exact ⟨h1, h4.1, h4.2⟩

/-- C10: for non-empty LF-terminated content (only standard terminators),
`view` counts `count '\n' + 1` lines (the trailing empty segment counts)
while `insert` validates against `count '\n'` lines; concretely for a
file `"a\n"`, `view(path, [2, 2])` succeeds (rendering the empty final
line as empty output) while `insert(path, 2, "x")` is rejected. -/
theorem view_insert_linecount_disagree (c : List Char)
    (hend : c.getLast? = some '\n')
    (hstd : ∀ ch ∈ c, isLineBreakChar ch = true → ch = '\n') :
    (pySplitNl c).length = c.count '\n' + 1 ∧
    (pySplitlinesKeep c).length = c.count '\n' ∧
    viewOp "a\n".toList (some (2, 2)) = Except.ok [] ∧
    (insertOp "a\n".toList 2 "x".toList).isOk = false :=
  ⟨length_pySplitNl c, length_pySplitlinesKeep hend hstd, rfl, rfl⟩

/-- Witness for C10 at the content `"a\n"`. -/
theorem view_insert_linecount_disagree_witness :
    (pySplitNl "a\n".toList).length = "a\n".toList.count '\n' + 1 ∧
    (pySplitlinesKeep "a\n".toList).length = "a\n".toList.count '\n' ∧
    viewOp "a\n".toList (some (2, 2)) = Except.ok [] ∧
    (insertOp "a\n".toList 2 "x".toList).isOk = false :=
  view_insert_linecount_disagree "a\n".toList (by decide) (by decide)

/-! ## C7 and C8: claim theorems for grep -/

theorem grepLinesGo_mem_iff (display : String) (target : List Char)
    (cs inv : Bool) (n0 : Nat) (ls : List (List Char)) :
    ∀ s : String,
      s ∈ grepLinesGo display target cs inv n0 ls ↔
        ∃ i l, ls.get? i = some l ∧
          (pyInStr target (if cs then pyStrip l else pyLower (pyStrip l)) != inv) = true ∧
          s = display ++ ":" ++ toString (n0 + i) ++ ": " ++ String.mk (pyStrip l) := by
  induction ls generalizing n0 with
  | nil =>
    intro s
    simp [grepLinesGo]
  | cons l0 ls' ih =>
    intro s
    simp only [grepLinesGo, List.mem_append]
    by_cases hm :
        (pyInStr target (if cs then pyStrip l0 else pyLower (pyStrip l0)) != inv) = true
    · rw [if_pos hm]
      constructor
      · intro hs
        rcases hs with hs | hs
        · refine ⟨0, l0, rfl, hm, ?_⟩
          simpa using hs
        · obtain ⟨i, l, hget, hmatch, hs'⟩ := (ih (n0 + 1) s).mp hs
          refine ⟨i + 1, l, by simpa using hget, hmatch, ?_⟩
          have hidx : n0 + 1 + i = n0 + (i + 1) := by omega
          rw [hs', hidx]
      · rintro ⟨i, l, hget, hmatch, hs⟩
        cases i with
        | zero =>
          left
          simp at hget
          subst hget
          simp [hs]
        | succ j =>
          right
          apply (ih (n0 + 1) s).mpr
          refine ⟨j, l, by simpa using hget, hmatch, ?_⟩
          have hidx : n0 + (j + 1) = n0 + 1 + j := by omega
          rw [hs, hidx]
    · rw [if_neg hm]
      simp only [List.not_mem_nil, false_or]
      constructor
      · intro hs
        obtain ⟨i, l, hget, hmatch, hs'⟩ := (ih (n0 + 1) s).mp hs
        refine ⟨i + 1, l, by simpa using hget, hmatch, ?_⟩
        have hidx : n0 + 1 + i = n0 + (i + 1) := by omega
        rw [hs', hidx]
      · rintro ⟨i, l, hget, hmatch, hs⟩
        cases i with
        | zero =>
          simp at hget
          subst hget
          exact absurd hmatch hm
        | succ j =>
          apply (ih (n0 + 1) s).mpr
          refine ⟨j, l, by simpa using hget, hmatch, ?_⟩
          have hidx : n0 + (j + 1) = n0 + 1 + j := by omega
          rw [hs, hidx]

/-- C7 (counterexample): the pattern `"b "` occurs in the raw line
`"ab \n"`, yet grep reports no match, because matching is done on the
whitespace-stripped line `"ab"`. -/
theorem grep_misses_whitespace_match :
    grepToolF (fun _ => false) "b "
      [("/f", GrepPathEntry.file "f" (OpenOutcome.ok "ab \n".toList))]
      true false =
      Except.ok "No matches found for 'b '." ∧
    pyInStr "b ".toList "ab \n".toList = true :=
  ⟨rfl, by decide⟩

/-- C7 (amended): a string is reported for a file iff it renders some
1-indexed line whose *stripped* text contains the (optionally lowercased)
pattern, with `invert` flipping the predicate; the rendered form is
`path:line_number: stripped-content` (colon, number, colon, space). -/
theorem grep_reports_stripped_lines (display : String) (rawContent : List Char)
    (target : List Char) (cs inv : Bool) (s : String) :
    s ∈ grepFileMatches display rawContent target cs inv ↔
      ∃ i l, (pyReadlines (normalizeLF rawContent)).get? i = some l ∧
        (pyInStr target (if cs then pyStrip l else pyLower (pyStrip l)) != inv) = true ∧
        s = display ++ ":" ++ toString (1 + i) ++ ": " ++ String.mk (pyStrip l) :=
  grepLinesGo_mem_iff display target cs inv 1 (pyReadlines (normalizeLF rawContent)) s

/-- C8 (counterexample): a `PermissionError` raised while enumerating an
unreadable directory escapes the grep tool boundary — no error string is
produced. -/
theorem grep_raises_on_unreadable_dir :
    grepToolF (fun _ => false) "x"
      [("/d", GrepPathEntry.dir (Except.error ()))] true false =
      Except.error () := rfl

/-- Reaching an `ok` string regardless of which branch an `if` takes. -/
theorem exists_ok_ite {b : Prop} [Decidable b] (x y : String) :
    ∃ s, (if b then Except.ok x else Except.ok y : Except Unit String) = Except.ok s := by
  by_cases h : b
  · exact ⟨x, if_pos h⟩
  · exact ⟨y, if_neg h⟩

/-- C8 (amended): every modeled internal failure of the bash and
text_editor tools is caught and rendered in the returned string — bash
always returns either the security-rejection `"Error: …"` string or the
formatted command-result envelope, and text_editor renders every
view / str_replace / insert error as an `"Error: …"` result with no
write; the ls and tree tools return a result string on every input,
including when a directory listing raises `PermissionError` (ls returns
its permission-denied error string, tree emits an inline
`[Permission Denied]` marker); the grep tool returns a string whenever
its directory enumeration succeeds (file-open permission /
is-a-directory failures are caught and skipped), the enumeration
exception being the one failure that escapes a tool boundary. -/
theorem tool_boundary_returns_strings :
    (∀ (enableSec : Bool) (hist : List CommandResult) (cmd sys : String)
        (r : CommandResult),
      (bashToolStep enableSec hist cmd sys r).2.1 =
          "Error: " ++ (checkSecurity cmd.toList).2 ∨
        (bashToolStep enableSec hist cmd sys r).2.1 = formatCommandResult r) ∧
    (∀ (p : String) (a : EditorArgs) (e : EdErr), a.pathAbs = true →
      (a.command = "view" → viewAtPath a.entry a.viewRange = Except.error e →
        textEditorToolF p a = ("Error: " ++ edErrMsg e, none)) ∧
      (a.command = "str_replace" → a.oldStr.isSome = true → a.newStr.isSome = true →
        strReplaceAtPath a.entry (a.oldStr.getD []) (some (a.newStr.getD [])) =
          Except.error e →
        textEditorToolF p a = ("Error: " ++ edErrMsg e, none)) ∧
      (a.command = "insert" → a.insertLine.isSome = true → a.newStr.isSome = true →
        insertAtPath a.entry (a.insertLine.getD 0) (a.newStr.getD []) =
          Except.error e →
        textEditorToolF p a = ("Error: " ++ edErrMsg e, none))) ∧
    (∀ (fnmatchP : String → String → Bool) (defaults : List String) (p : String)
        (pathAbs : Bool) (target : LsTarget) (mtch ign : Option (List String)),
      ∃ s, lsToolF fnmatchP defaults p pathAbs target mtch ign = Except.ok s) ∧
    (∀ (fnmatchP : String → String → Bool) (defaults : List String) (fuel : Nat)
        (root : String) (pathAbs : Bool) (target : TreeTarget)
        (maxDepth : Option Int) (mtch ign : Option (List String)),
      ∃ s, treeToolF fnmatchP defaults fuel root pathAbs target maxDepth mtch ign =
        Except.ok s) ∧
    (∀ (ignored : String → Bool) (pattern : String)
        (paths : List (String × GrepPathEntry)) (cs inv : Bool),
      (∀ q ∈ paths, q.2 ≠ GrepPathEntry.dir (Except.error ())) →
      ∃ s, grepToolF ignored pattern paths cs inv = Except.ok s) := by
  refine ⟨?_, ?_, ?_, ?_, ?_⟩
  · intro enableSec hist cmd sys r
    rcases hc : checkSecurity cmd.toList with ⟨fst, msg⟩
    have hc' : checkSecurity cmd.data = (fst, msg) := hc
    cases enableSec
    · right
      simp [bashToolStep]
    · cases fst
      · left
        simp [bashToolStep, hc', hc]
      · right
        simp [bashToolStep, hc']
  · intro p a e habs
    refine ⟨?_, ?_, ?_⟩
    · intro hcmd herr
      unfold textEditorToolF
      rw [if_neg (by simp [habs])]
      rw [if_pos hcmd, herr]
    · intro hcmd ho hn herr
      unfold textEditorToolF
      rw [if_neg (by simp [habs])]
      rw [if_neg (by rw [hcmd]; decide)]
      rw [if_pos ⟨hcmd, ho, hn⟩, herr]
    · intro hcmd hi hn herr
      unfold textEditorToolF
      rw [if_neg (by simp [habs])]
      rw [if_neg (by rw [hcmd]; decide)]
      rw [if_neg (by
        rw [hcmd]
        intro hcontra
        exact absurd hcontra.1 (by decide))]
      rw [if_pos ⟨hcmd, hi, hn⟩, herr]
  · intro fnmatchP defaults p pathAbs target mtch ign
    cases pathAbs
    · exact ⟨_, rfl⟩
    · cases target with
      | missing => exact ⟨_, rfl⟩
      | notDir => exact ⟨_, rfl⟩
      | dir listing =>
        cases listing with
        | error u => exact ⟨_, rfl⟩
        | ok items => exact exists_ok_ite _ _
  · intro fnmatchP defaults fuel root pathAbs target maxDepth mtch ign
    cases pathAbs
    · exact ⟨_, rfl⟩
    · cases target with
      | missing => exact ⟨_, rfl⟩
      | notDir => exact ⟨_, rfl⟩
      | dir rootName listing => exact ⟨_, rfl⟩
  · intro ignored pattern paths cs inv h
    have hcol : ∀ ps : List (String × GrepPathEntry),
        (∀ q ∈ ps, q.2 ≠ GrepPathEntry.dir (Except.error ())) →
        ∃ r, grepCollect ps = Except.ok r := by
      intro ps
      induction ps with
      | nil => intro _; exact ⟨_, rfl⟩
      | cons q ps' ih =>
        intro hall
        obtain ⟨r', hr'⟩ := ih (fun q' hq' => hall q' (List.mem_cons_of_mem _ hq'))
        rcases q with ⟨qstr, qe⟩
        cases qe with
        | notAbsolute => exact ⟨_, rfl⟩
        | missing => exact ⟨_, rfl⟩
        | file base o =>
          cases r' with
          | inl msg =>
            refine ⟨Sum.inl msg, ?_⟩
            simp [grepCollect, hr']
          | inr fs =>
            refine ⟨Sum.inr ({ display := qstr, base := base, openRes := o } :: fs), ?_⟩
            simp [grepCollect, hr']
        | dir en =>
          cases en with
          | error u =>
            cases u
            exact absurd rfl (hall (qstr, GrepPathEntry.dir (Except.error ()))
              (List.mem_cons_self _ _))
          | ok dirFiles =>
            cases r' with
            | inl msg =>
              refine ⟨Sum.inl msg, ?_⟩
              simp [grepCollect, hr']
            | inr fs =>
              refine ⟨Sum.inr (dirFiles ++ fs), ?_⟩
              simp [grepCollect, hr']
    obtain ⟨r, hr⟩ := hcol paths h
    cases r with
    | inl msg => exact ⟨msg, by simp [grepToolF, hr]⟩
    | inr files =>
      simp only [grepToolF, hr]
      by_cases hres : (grepSearchAll
          (if cs then pattern.toList else pyLower pattern.toList) cs inv
          (files.filter (fun f => !ignored f.base))).isEmpty = true
      · rw [if_pos hres]
        exact ⟨_, rfl⟩
      · rw [if_neg hres]
        exact ⟨_, rfl⟩

/-- Witness for C8's amended theorem, exercising each tool: a rejected
bash command, a view of a missing file, an ls and a tree over a
permission-denied directory listing, and a grep over one readable
file. -/
theorem tool_boundary_returns_strings_witness :
    ((bashToolStep true [] "sudo ls" "Linux" (securityRejectedResult "" "" "")).2.1 =
        "Error: " ++ (checkSecurity "sudo ls".toList).2 ∨
      (bashToolStep true [] "sudo ls" "Linux" (securityRejectedResult "" "" "")).2.1 =
        formatCommandResult (securityRejectedResult "" "" "")) ∧
    textEditorToolF "/nope"
        { command := "view", pathAbs := true, entry := none } =
      ("Error: " ++ edErrMsg EdErr.fileNotFound, none) ∧
    (∃ s, lsToolF (fun _ _ => false) [] "/d" true
      (LsTarget.dir (Except.error ())) none none = Except.ok s) ∧
    (∃ s, treeToolF (fun _ _ => false) [] 5 "/d" true
      (TreeTarget.dir "d" (Except.error ())) none none none = Except.ok s) ∧
    (∃ s, grepToolF (fun _ => false) "hi"
      [("/f", GrepPathEntry.file "f" (OpenOutcome.ok "hi\n".toList))]
      true false = Except.ok s) := by
  obtain ⟨h1, h2, h3, h4, h5⟩ := tool_boundary_returns_strings
  refine ⟨h1 true [] "sudo ls" "Linux" (securityRejectedResult "" "" ""), ?_,
    h3 (fun _ _ => false) [] "/d" true (LsTarget.dir (Except.error ())) none none,
    h4 (fun _ _ => false) [] 5 "/d" true (TreeTarget.dir "d" (Except.error ()))
      none none none, ?_⟩
  · exact (h2 "/nope" { command := "view", pathAbs := true, entry := none }
      EdErr.fileNotFound rfl).1 rfl rfl
  · refine h5 (fun _ => false) "hi"
      [("/f", GrepPathEntry.file "f" (OpenOutcome.ok "hi\n".toList))] true false ?_
    intro q hq
    rw [List.mem_singleton] at hq
    subst hq
    intro hcontra
    exact GrepPathEntry.noConfusion hcontra

/-! ## C1: claim theorems for view -/

theorem renderNumbered_joinNl (k : Nat) (S : List (List Char)) (hne : S ≠ [])
    (hbf : ∀ l ∈ S, ∀ ch ∈ l, isLineBreakChar ch = false) :
    renderNumbered k (joinNl S) =
      joinNl ((dropTrailingEmptyLine S).enum.map
        (fun p => fmtLineNum (p.1 + k) ++ [' ', '|', ' '] ++ p.2)) := by
  rw [renderNumbered, pySplitlines_joinNl S hne hbf]

theorem breakFree_pySplitNl_normalize (d : List Char)
    (hstd : ∀ ch ∈ d, isLineBreakChar ch = true → ch = '\n' ∨ ch = '\r') :
    ∀ l ∈ pySplitNl (normalizeLF d), ∀ ch ∈ l, isLineBreakChar ch = false := by
  intro l hl ch hch
  obtain ⟨hmem, hnn⟩ := mem_pySplitNl (normalizeLF d) l hl ch hch
  cases hb : isLineBreakChar ch
  · rfl
  · exfalso
    rcases mem_normalizeLF hmem with hd | hn
    · rcases hstd ch hd hb with he | he
      · exact hnn he
      · exact not_cr_mem_normalizeLF d (he ▸ hmem)
    · exact hnn hn

/-- C1 (counterexample): for the file `"a\n\nb"` (three lines, line 2
empty) the in-range request `[1, 2]` renders only line 1 — the empty
line 2 is silently dropped from the numbered output, so the output has
one line instead of two. -/
theorem view_drops_trailing_empty_line :
    viewOp "a\n\nb".toList (some (1, 2)) = Except.ok "  1 | a".toList ∧
    (pySplitNl "a\n\nb".toList).length = 3 ∧
    "  1 | a".toList.count '\n' + 1 = 1 ∧ (1 : Nat) ≠ 2 :=
  ⟨rfl, by decide, by decide, by decide⟩

/-- C1 (amended): for a validated start line `1 ≤ a ≤ total_lines`,
`view` behaves as the amended specification `viewSpecAmended` of the
LF-normalized content: `b < a` (with `b ≠ -1`) is rejected, `b = -1` or
`b >` total lines selects/clamps to the last line, and the selected lines
are rendered with their original 1-indexed numbers except that a trailing
empty selected line is omitted. -/
theorem view_range_amended (d : List Char) (a b : Int)
    (hstd : ∀ ch ∈ d, isLineBreakChar ch = true → ch = '\n' ∨ ch = '\r')
    (h1 : 1 ≤ a) (h2 : a ≤ ((pySplitNl (normalizeLF d)).length : Int)) :
    viewOp d (some (a, b)) = viewSpecAmended (normalizeLF d) a b := by
  have hbf := breakFree_pySplitNl_normalize d hstd
  have houter : ¬(a < 1 ∨ ((pySplitNl (normalizeLF d)).length : Int) < a) := by
    omega
  have hlenpos : 1 ≤ (pySplitNl (normalizeLF d)).length := by
    have hnn := pySplitNl_ne_nil (normalizeLF d)
    have := List.length_pos.mpr hnn
    omega
  have hk : (a - 1).toNat < (pySplitNl (normalizeLF d)).length := by
    have hcast : ((a - 1).toNat : Int) = a - 1 := Int.toNat_of_nonneg (by omega)
    omega
  show viewRangeOp (normalizeLF d) a b = viewSpecAmended (normalizeLF d) a b
  unfold viewRangeOp viewSpecAmended
  rw [if_neg houter]
  by_cases hbm : b = -1
  · subst hbm
    rw [if_neg (show ¬((-1 : Int) ≠ -1 ∧ ((-1 : Int) < a ∨
      ((pySplitNl (normalizeLF d)).length : Int) < -1)) by simp)]
    rw [if_pos (rfl : (-1 : Int) = -1)]
    rw [if_neg (show ¬((-1 : Int) ≠ -1 ∧ (-1 : Int) < a) by simp)]
    rw [if_pos (Or.inl rfl : (-1 : Int) = -1 ∨
      ((pySplitNl (normalizeLF d)).length : Int) < -1)]
    rw [renderNumbered_joinNl a.toNat _
      (by rw [ne_eq, List.drop_eq_nil_iff]; omega)
      (fun l hl => hbf l (List.mem_of_mem_drop hl))]
  · by_cases hba : b < a
    · rw [if_pos (⟨hbm, Or.inl hba⟩ : b ≠ -1 ∧ (b < a ∨
        ((pySplitNl (normalizeLF d)).length : Int) < b))]
      rw [if_neg (by omega : ¬ ((pySplitNl (normalizeLF d)).length : Int) < b)]
      rw [if_pos (⟨hbm, hba⟩ : b ≠ -1 ∧ b < a)]
    · by_cases hbn : ((pySplitNl (normalizeLF d)).length : Int) < b
      · rw [if_pos (⟨hbm, Or.inr hbn⟩ : b ≠ -1 ∧ (b < a ∨
          ((pySplitNl (normalizeLF d)).length : Int) < b))]
        rw [if_pos hbn]
        rw [if_neg (by omega : ¬(b ≠ -1 ∧ b < a))]
        rw [if_pos (Or.inr hbn : b = -1 ∨
          ((pySplitNl (normalizeLF d)).length : Int) < b)]
        rw [Int.toNat_natCast, List.take_length]
        rw [renderNumbered_joinNl a.toNat _
          (by rw [ne_eq, List.drop_eq_nil_iff]; omega)
          (fun l hl => hbf l (List.mem_of_mem_drop hl))]
      · rw [if_neg (by
          rintro ⟨-, hor⟩
          rcases hor with hor | hor
          · exact hba hor
          · exact hbn hor)]
        rw [if_neg hbm]
        rw [if_neg (by omega : ¬(b ≠ -1 ∧ b < a))]
        rw [if_neg (by
          rintro (hor | hor)
          · exact hbm hor
          · exact hbn hor)]
        have htk : (a - 1).toNat <
            (List.take b.toNat (pySplitNl (normalizeLF d))).length := by
          rw [List.length_take]
          have hcast : ((a - 1).toNat : Int) = a - 1 := Int.toNat_of_nonneg (by omega)
          have hbcast : (b.toNat : Int) = b := Int.toNat_of_nonneg (by omega)
          omega
        rw [renderNumbered_joinNl a.toNat _
          (by rw [ne_eq, List.drop_eq_nil_iff]; omega)
          (fun l hl => hbf l (List.mem_of_mem_take (List.mem_of_mem_drop hl)))]

/-- Witness for C1's amended theorem at the file `"a\nb\nc"` with range
`[1, 2]`. -/
theorem view_range_amended_witness :
    viewOp "a\nb\nc".toList (some (1, 2)) =
      viewSpecAmended (normalizeLF "a\nb\nc".toList) 1 2 :=
  view_range_amended "a\nb\nc".toList 1 2 (by decide) (by decide) (by decide)
